import Mathlib

/-!
Verification of the xvcd_server shift engine and XVC protocol handler.

The definitions below are a shallow embedding of the Python sources:
  - `xvcd_server.py` (the protocol handler `handle`, the conversion
    `byteVectToBitStream`, and the TDO wire packing),
  - `adapters/pyftdi.py` (`PyFTDIAdapter.send_data`, the shift engine),
  - `adapters/pyftdi_jtagc.py` (`JtagController`: `write_tms_tdi_read_tdo`,
    `write_tdi_read_tdo`, `_write_read_bits`, `_write_read_bytes`),
  - `adapters/ft4232h.py` (`FT4232H.set_tck_period`).

Bit vectors (`bitstring.BitStream` / `BitArray`) are embedded as `List Bool`
with index 0 the left-most bit, exactly as in the bitstring library where the
left-most bit of the stream has index 0.  Bytes are `Nat` values (callers of
the wire conversions supply values below 256, which theorems assume where it
matters).  The FTDI USB device is embedded as an oracle of read bytes
(`Dev.rx`); a `none` entry models a USB read that yields fewer bytes than
demanded (a timeout), which the Python code turns into a raised `JtagError`.

The Python `while` loops are embedded with explicit fuel; the fuel chosen at
each call site strictly exceeds the number of iterations the loop can
perform, except where the Python loop itself would not terminate (a zero
`max_rw_bits` chunk size), which exhausting the fuel models as an error.
-/

namespace Xvcd

/-- Bits of one byte, most significant bit first.  This is the order in which
`bitstring` stores byte data inside a `BitStream`. -/
def byteToBits (b : Nat) : List Bool :=
  [b.testBit 7, b.testBit 6, b.testBit 5, b.testBit 4,
   b.testBit 3, b.testBit 2, b.testBit 1, b.testBit 0]

/-- `BitStream(bytes=v, length=len(v)*8)`: the bytes' bits, msb-first within
each byte, in byte order. -/
def bytesToBits : List Nat → List Bool
  | [] => []
  | b :: bs => byteToBits b ++ bytesToBits bs

/-- Value of a bit list read msb-first (`BitArray.uint`). -/
def bitsToByte (l : List Bool) : Nat :=
  l.foldl (fun a b => 2 * a + b.toNat) 0

/-- Pack a bit list into bytes, eight bits per byte msb-first
(`BitArray.bytes`).  All call sites pack whole-byte vectors; a trailing group
of fewer than eight bits (on which bitstring would raise) is dropped. -/
def bitsToBytes : List Bool → List Nat
  | b0 :: b1 :: b2 :: b3 :: b4 :: b5 :: b6 :: b7 :: rest =>
      bitsToByte [b0, b1, b2, b3, b4, b5, b6, b7] :: bitsToBytes rest
  | _ => []

/-- `bitstring` `byteswap()` with no arguments: reverse the order of the
whole-byte groups.  All call sites act on whole-byte vectors; a trailing
group of fewer than eight bits is left in place. -/
def byteswapBits : List Bool → List Bool
  | b0 :: b1 :: b2 :: b3 :: b4 :: b5 :: b6 :: b7 :: rest =>
      byteswapBits rest ++ [b0, b1, b2, b3, b4, b5, b6, b7]
  | l => l

/-- `xvcd_server.byteVectToBitStream(byteVect, bitLen)`: build the stream from
the raw bytes, `byteswap()`, `reverse()`, then truncate to `bitLen` bits. -/
def byteVectToBitStream (byteVect : List Nat) (bitLen : Nat) : List Bool :=
  ((byteswapBits (bytesToBits byteVect)).reverse).take bitLen

/-- The TDO wire packing in `handle()` (lines 361-368): append zero bits up to
a byte multiple, `reverse()`, `byteswap()`, then take the bytes. -/
def packWire (v : List Bool) : List Nat :=
  bitsToBytes (byteswapBits (v ++ List.replicate ((8 - v.length % 8) % 8) false).reverse)

/-- The wire packing read as a bit vector: bit `i` of the logical vector is
bit `i % 8` (lsb-first) of byte `i / 8`. -/
def wireBits : List Nat → List Bool
  | [] => []
  | b :: bs => (byteToBits b).reverse ++ wireBits bs

/-- Modelled from the spec: `adapters/jtag.py` is not among the provided
sources (it is imported by every adapter as the base class holding the TAP
tracker).  The spec lists the sixteen canonical IEEE 1149.1 TAP states. -/
inductive TapState where
  | testLogicReset | runTestIdle
  | selectDR | captureDR | shiftDR | exit1DR | pauseDR | exit2DR | updateDR
  | selectIR | captureIR | shiftIR | exit1IR | pauseIR | exit2IR | updateIR
deriving DecidableEq, Repr

/-- Modelled from the spec: the pure IEEE 1149.1 TAP transition
`next(state, tms_bit)` of the missing `adapters/jtag.py` tracker (spec 4.2);
TMS is sampled on the TCK rising edge. -/
def tapNext : TapState → Bool → TapState
  | .testLogicReset, false => .runTestIdle
  | .testLogicReset, true  => .testLogicReset
  | .runTestIdle,    false => .runTestIdle
  | .runTestIdle,    true  => .selectDR
  | .selectDR,       false => .captureDR
  | .selectDR,       true  => .selectIR
  | .captureDR,      false => .shiftDR
  | .captureDR,      true  => .exit1DR
  | .shiftDR,        false => .shiftDR
  | .shiftDR,        true  => .exit1DR
  | .exit1DR,        false => .pauseDR
  | .exit1DR,        true  => .updateDR
  | .pauseDR,        false => .pauseDR
  | .pauseDR,        true  => .exit2DR
  | .exit2DR,        false => .shiftDR
  | .exit2DR,        true  => .updateDR
  | .updateDR,       false => .runTestIdle
  | .updateDR,       true  => .selectDR
  | .selectIR,       false => .captureIR
  | .selectIR,       true  => .testLogicReset
  | .captureIR,      false => .shiftIR
  | .captureIR,      true  => .exit1IR
  | .shiftIR,        false => .shiftIR
  | .shiftIR,        true  => .exit1IR
  | .exit1IR,        false => .pauseIR
  | .exit1IR,        true  => .updateIR
  | .pauseIR,        false => .pauseIR
  | .pauseIR,        true  => .exit2IR
  | .exit2IR,        false => .shiftIR
  | .exit2IR,        true  => .updateIR
  | .updateIR,       false => .runTestIdle
  | .updateIR,       true  => .selectDR

/-- Modelled from the spec: `track(tms_sequence)` folds the transition over a
bit vector (spec 4.2). -/
def tapTrack (s : TapState) (tms : List Bool) : TapState :=
  tms.foldl tapNext s

/-!  The FTDI USB device and the custom `JtagController`
(`adapters/pyftdi_jtagc.py`).  `Dev.rx` is the stream of bytes the FTDI
returns to USB reads; position `devpos` (the number of bytes read so far) is
threaded through every operation.  A `none` entry makes the read come up
short, which the Python code raises as `JtagError('Not all data read! ...')`. -/

structure Dev where
  /-- FTDI_WRITE_PIPE_LEN, the write FIFO size cached by `configure`. -/
  wPipe : Nat
  /-- FTDI_READ_PIPE_LEN, the read FIFO size cached by `configure`. -/
  rPipe : Nat
  /-- Oracle of bytes returned by `read_data_bytes`. -/
  rx : Nat → Option Nat

/-- FTDI_WR_BUFFER_MAX_LEN = FTDI_WRITE_PIPE_LEN - 3 (command byte plus two
length bytes also occupy the write FIFO). -/
def wrBufMax (d : Dev) : Nat := d.wPipe - 3

/-- FTDI_RD_BUFFER_MAX_LEN = FTDI_READ_PIPE_LEN - 2 (two status bytes occupy
the read FIFO). -/
def rdBufMax (d : Dev) : Nat := d.rPipe - 2

/-- `JtagController.max_byte_sizes`: the 3-tuple (TMS, TDI, TDO) of maximum
byte counts, i.e. (write max, write max, read max). -/
def max_byte_sizes (d : Dev) : Nat × Nat × Nat := (wrBufMax d, wrBufMax d, rdBufMax d)

def errShortRead : String := "Not all data read"
def errRdChunk : String := "Byte length of Read data is larger than Read buffer"
def errWrChunk : String := "Byte length of Write data is larger than Write Buffer"
def errTmsLen : String := "Invalid TMS length"
def errBitsLen : String := "Wrong number of bits"
def errIndex : String := "IndexError"
def errStuck : String := "no progress"

/-- `Ftdi.read_data_bytes(n, 4)` followed by the caller's length check: the
read succeeds only when all `n` bytes are available from the oracle. -/
def readBytes (d : Dev) (devpos n : Nat) : Except String (List Nat) :=
  let bs := (List.range n).map fun i => d.rx (devpos + i)
  if bs.all Option.isSome then .ok (bs.map (fun o => o.getD 0)) else .error errShortRead

/-- The TDI argument of `write_tms_tdi_read_tdo`: `isinstance` dispatch on
BitStream/BitArray versus bool. -/
inductive TdiArg where
  | bits (l : List Bool)
  | flag (b : Bool)
deriving DecidableEq, Repr

/-- The single TDI bit `write_tms_tdi_read_tdo` latches: `tdi[0]` for a
BitStream/BitArray argument, the value itself for a bool. -/
def tdiArgBit : TdiArg → Bool
  | .bits l => l.getD 0 false
  | .flag b => b

/-- `JtagController.write_tms_tdi_read_tdo(tms, tdi)`.  Returns the mutated
`tms` object (the Python code reverses it, prepends zeros to 8 bits and
overwrites bit 0 in place), the `tdi` object (which the code only reads),
the TDO bits, and the new oracle position. -/
def write_tms_tdi_read_tdo (d : Dev) (tms : List Bool) (tdi : TdiArg) (devpos : Nat) :
    Except String (List Bool × TdiArg × List Bool × Nat) :=
  let length := tms.length
  if 0 < length ∧ length < 8 then
    let t1 := tms.reverse
    let t2 := List.replicate (8 - t1.length) false ++ t1
    match (match tdi with
      | .bits l => if l.isEmpty then Except.error errIndex else Except.ok (l.getD 0 false)
      | .flag b => Except.ok b : Except String Bool) with
    | .error e => .error e
    | .ok bit =>
      let t3 := t2.set 0 bit
      match readBytes d devpos 1 with
      | .error e => .error e
      | .ok data =>
        let tdo := byteToBits (data.getD 0 0)
        .ok (t3, tdi, (tdo.take length).reverse, devpos + 1)
  else .error errTmsLen

/-- `JtagController._write_read_bits(out)`: clock 1..8 bits, read one byte
back, keep its low `length` bits (`tdo[8-length:]`). -/
def writeReadBits (d : Dev) (out : List Bool) (devpos : Nat) :
    Except String (List Bool × Nat) :=
  let length := out.length
  if 0 < length ∧ length ≤ 8 then
    match readBytes d devpos 1 with
    | .error e => .error e
    | .ok data => .ok ((byteToBits (data.getD 0 0)).drop (8 - length), devpos + 1)
  else .error errBitsLen

/-- `JtagController._write_read_bytes(out)`: whole-byte clocking with the two
defensive chunk-size checks, then a read of exactly `olen` bytes. -/
def writeReadBytes (d : Dev) (out : List Bool) (devpos : Nat) :
    Except String (List Bool × Nat) :=
  let olen := out.length / 8
  if olen > rdBufMax d then .error errRdChunk
  else if olen > wrBufMax d then .error errWrChunk
  else
    match readBytes d devpos olen with
    | .error e => .error e
    | .ok data => .ok (bytesToBits data, devpos + olen)

/-- Python slice `l[a:b]`. -/
def slice (l : List α) (a b : Nat) : List α := (l.drop a).take (b - a)

/-- The byte-chunking loop of `write_tdi_read_tdo`: while `head < stop`, take
`tail = min(head+maxBits, stop)` and pass `out[head:tail]` to
`_write_read_bytes`.  The first component records the byte length of every
chunk passed down.  The caller supplies fuel `out.len/8 + 1`, which strictly
exceeds the iteration count except when `maxBits` is 0; in that case the
Python loop never advances, which exhausting the fuel models as an error. -/
def byteLoop (d : Dev) (out : List Bool) (stop maxBits : Nat) :
    Nat → Nat → Nat → List Nat × Except String (List Bool × Nat)
  | 0, head, devpos =>
      if head < stop then ([], .error errStuck) else ([], .ok ([], devpos))
  | fuel + 1, head, devpos =>
      if head < stop then
        let tail := min (head + maxBits) stop
        let chunk := slice out head tail
        let olen := chunk.length / 8
        match writeReadBytes d chunk devpos with
        | .error e => ([olen], .error e)
        | .ok (tdo1, devpos1) =>
          match byteLoop d out stop maxBits fuel tail devpos1 with
          | (tr, .ok (tdo2, devpos2)) => (olen :: tr, .ok (tdo1 ++ tdo2, devpos2))
          | (tr, .error e) => (olen :: tr, .error e)
      else ([], .ok ([], devpos))

/-- `JtagController.write_tdi_read_tdo(out)`: split into whole-byte chunks of
at most `min(max_byte_sizes[1], max_byte_sizes[2]) * 8` bits each, then a
trailing 1..7 bit chunk.  The first component is the list of byte lengths of
the chunks passed to `_write_read_bytes`. -/
def write_tdi_read_tdo (d : Dev) (out : List Bool) (devpos : Nat) :
    List Nat × Except String (List Bool × Nat) :=
  let byteCount := out.length / 8
  let stop := 8 * byteCount
  let bitCount := out.length - stop
  let maxBits := (min (wrBufMax d) (rdBufMax d)) * 8
  match byteLoop d out stop maxBits (byteCount + 1) 0 devpos with
  | (tr, .error e) => (tr, .error e)
  | (tr, .ok (tdo1, devpos1)) =>
    if bitCount ≠ 0 then
      match writeReadBits d (out.drop stop) devpos1 with
      | .error e => (tr, .error e)
      | .ok (tdo2, devpos2) => (tr, .ok (tdo1 ++ tdo2, devpos2))
    else (tr, .ok (tdo1, devpos1))

/-!  The shift engine `PyFTDIAdapter.send_data` (`adapters/pyftdi.py`,
lines 128-209).  Each call it issues to the controller is recorded as a
`JCall` holding the cursor interval. -/

/-- One controller call issued by the shift engine: `tdiRun h p` is
`write_tdi_read_tdo(tdi[h:p])`; `tmsRun h t c` is
`write_tms_tdi_read_tdo(tms[h:t], c)` with `c = tdi[t-1]`. -/
inductive JCall where
  | tdiRun (h p : Nat)
  | tmsRun (h t : Nat) (c : Bool)
deriving DecidableEq, Repr

/-- The scan behind `findBit`, with fuel strictly exceeding the number of
positions left to examine. -/
def findBitGo (l : List Bool) (b : Bool) : Nat → Nat → Option Nat
  | 0, _ => none
  | fuel + 1, start =>
      if h : start < l.length then
        if l.get ⟨start, h⟩ = b then some start else findBitGo l b fuel (start + 1)
      else none

/-- `bitstring` `find` of a single-bit pattern: the smallest index at or
after `start` whose bit equals `b`, as used by `tms_stream.find('0b1', ...)`
and `tms_stream.find('0b0', ...)`. -/
def findBit (l : List Bool) (b : Bool) (start : Nat) : Option Nat :=
  findBitGo l b (l.length + 1) start

/-- The Python `tms1Pos`: the position of the next TMS=1 bit at or after
`head`, or the vector length when none exists. -/
def tms1Pos (tms : List Bool) (head : Nat) : Nat :=
  (findBit tms true head).getD tms.length

/-- The Python `tms0Pos`: one past the position of the next TMS=0 bit at or
after `head` (the trailing TMS=0 clock is included in the TMS=1 run), or the
vector length when none exists. -/
def tms0Pos (tms : List Bool) (head : Nat) : Nat :=
  match findBit tms false head with
  | some i => i + 1
  | none => tms.length

/-- The inner while loop of `send_data`: while `tms0Pos > head`, send
`tms[head:tail]` with `tail = min(tms0Pos, head+7)` and TDI held at
`tdi[tail-1]`.  Every call site supplies fuel strictly exceeding the
iteration count. -/
def tmsSegLoop (d : Dev) (tms tdi : List Bool) (q : Nat) :
    Nat → Nat → Nat → List JCall × Except String (List Bool × Nat)
  | 0, _, _ => ([], .error errStuck)
  | fuel + 1, head, devpos =>
    if head < q then
      let tail := min q (head + 7)
      match tdi.get? (tail - 1) with
      | none => ([], .error errIndex)
      | some c =>
        match write_tms_tdi_read_tdo d (slice tms head tail) (.flag c) devpos with
        | .error e => ([.tmsRun head tail c], .error e)
        | .ok (_, _, tdo1, devpos1) =>
          match tmsSegLoop d tms tdi q fuel tail devpos1 with
          | (cs, .ok (tdo2, devpos2)) =>
              (.tmsRun head tail c :: cs, .ok (tdo1 ++ tdo2, devpos2))
          | (cs, .error e) => (.tmsRun head tail c :: cs, .error e)
    else ([], .ok ([], devpos))

/-- The outer while loop of `send_data`: find the next TMS=1 position `p`,
flush the TMS=0 run `[head, p)` through `write_tdi_read_tdo`, then find the
next TMS=0 position, extend it by one, and flush the TMS=1 run in pieces of
at most 7 bits.  `send_data` supplies fuel strictly exceeding the iteration
count. -/
def sendLoop (d : Dev) (tms tdi : List Bool) :
    Nat → Nat → Nat → List JCall × Except String (List Bool × Nat)
  | 0, _, _ => ([], .error errStuck)
  | fuel + 1, head, devpos =>
    if head < tms.length then
      let p := tms1Pos tms head
      let r0 : List JCall × Except String (List Bool × Nat) :=
        if head < p then
          match write_tdi_read_tdo d (slice tdi head p) devpos with
          | (_, .error e) => ([.tdiRun head p], .error e)
          | (_, .ok (tdo0, devpos0)) => ([.tdiRun head p], .ok (tdo0, devpos0))
        else ([], .ok ([], devpos))
      match r0 with
      | (cs0, .error e) => (cs0, .error e)
      | (cs0, .ok (tdo0, devpos0)) =>
        if p < tms.length then
          let q := tms0Pos tms p
          match tmsSegLoop d tms tdi q (tms.length + 1) p devpos0 with
          | (cs1, .error e) => (cs0 ++ cs1, .error e)
          | (cs1, .ok (tdo1, devpos1)) =>
            match sendLoop d tms tdi fuel q devpos1 with
            | (cs2, .ok (tdo2, devpos2)) =>
                (cs0 ++ cs1 ++ cs2, .ok (tdo0 ++ tdo1 ++ tdo2, devpos2))
            | (cs2, .error e) => (cs0 ++ cs1 ++ cs2, .error e)
        else (cs0, .ok (tdo0, devpos0))
    else ([], .ok ([], devpos))

/-- `PyFTDIAdapter.send_data(tms_stream, tdi_stream)`: the full shift engine
walk, together with the trace of controller calls it issues. -/
def send_data (d : Dev) (tms tdi : List Bool) (devpos : Nat) :
    List JCall × Except String (List Bool × Nat) :=
  sendLoop d tms tdi (tms.length + 1) 0 devpos

/-!  The XVC protocol handler `xvcd_server.handle` (`xvcd_server.py`,
lines 129-378), for the MPSSE adapter stack (`FT4232H` over the custom
`JtagController`). -/

/-- ASCII bytes of a string literal, for the wire-protocol command tags. -/
def asciiOf (s : String) : List Nat := s.data.map Char.toNat

/-- `int.to_bytes(4, byteorder='little')`. -/
def toLE4 (n : Nat) : List Nat :=
  [n % 256, n / 256 % 256, n / 65536 % 256, n / 16777216 % 256]

/-- `int.from_bytes(l, byteorder='little')` on four bytes. -/
def fromLE4 (l : List Nat) : Nat :=
  l.getD 0 0 + 256 * l.getD 1 0 + 65536 * l.getD 2 0 + 16777216 * l.getD 3 0

/-- `xvcd_server.sread(length)`: loop on `recv` until `length` bytes arrived;
a closed peer or socket error yields the empty byte string, modelled as
`none`. -/
def sread (n : Nat) (input : List Nat) : Option (List Nat × List Nat) :=
  if n ≤ input.length then some (input.take n, input.drop n) else none

/-- `FT4232H.DEFAULT_FREQ = int(1e6)`. -/
def DEFAULT_FREQ : Nat := 1000000

/-- `FT4232H.set_tck_period(period)` (`adapters/ft4232h.py`, lines 79-87):
the requested period is ignored and the fixed value
`int(1e9 // DEFAULT_FREQ) = 1000` is returned. -/
def set_tck_period (_period : Nat) : Nat := 1000000000 / DEFAULT_FREQ

/-- `FT4232H.set_tck_period` with its frequency-setting effect made visible:
the second component lists the frequencies the call asks the controller to
set.  The Python body contains no `set_frequency` call, so the list is
empty. -/
def set_tck_period_eff (period : Nat) : Nat × List Nat := (set_tck_period period, [])

/-- The `settck:` handling the spec claims: ask the controller to set
frequency `1e9 / period_ns` and reply with `1e9 / actual_frequency`.
(Second, spec-side definition used to compare against the source's
`set_tck_period_eff`.) -/
def set_tck_period_claimed (period actualFreq : Nat) : Nat × List Nat :=
  (1000000000 / actualFreq, [1000000000 / period])

/-- The `getinfo:` reply string: `xvcServer_v1.0:` then
`min(max_byte_sizes[0]+max_byte_sizes[1], max_byte_sizes[2]*2)` in decimal,
then a newline (`handle`, line 175). -/
def xvc_info (d : Dev) : List Nat :=
  asciiOf "xvcServer_v1.0:" ++
    asciiOf (Nat.repr (min ((max_byte_sizes d).1 + (max_byte_sizes d).2.1)
      ((max_byte_sizes d).2.2 * 2))) ++ [10]

/-- `bitstring.BitStream('0b11101')`, the ISE Capture-IR workaround pattern
(`handle`, line 329): index 0 is the left-most literal bit. -/
def isePattern : List Bool := [true, true, true, false, true]

/-- The server-side session state: the device read-oracle position, and the
software TAP state of the (spec-modelled) `adapters/jtag.py` tracker, which
starts at Test-Logic-Reset and is advanced only by `track_tms` calls. -/
structure SrvState where
  devpos : Nat
  tap : TapState
deriving DecidableEq, Repr

/-- How the `handle` loop ended: `clean` when the loop hit a `break`
(invalid command, short read, or the N = 0 `shift:` abort); `errored` when an
exception other than KeyboardInterrupt propagated out of the loop (for
example a `JtagError` raised inside `send_data`). -/
inductive SessEnd where
  | clean | errored
deriving DecidableEq, Repr

/-- The command loop of `xvcd_server.handle`.  The fuel bounds the number of
loop iterations; every theorem below supplies more fuel than the number of
commands in its input.  Outputs are the concatenated `sendall` payloads. -/
def session (d : Dev) (verbose : Nat) :
    Nat → List Nat → SrvState → List Nat × SrvState × SessEnd
  | 0, _, st => ([], st, .errored)
  | fuel + 1, input, st =>
    match sread 2 input with
    | none => ([], st, .clean)
    | some (snip, rest1) =>
      if snip = asciiOf "ge" then
        match sread 6 rest1 with
        | none => ([], st, .clean)
        | some (data, rest2) =>
          if data = asciiOf "tinfo:" then
            let reply := if verbose ≥ 1 then xvc_info d else []
            let r := session d verbose fuel rest2 st
            (reply ++ r.1, r.2)
          else ([], st, .clean)
      else if snip = asciiOf "se" then
        match sread 9 rest1 with
        | none => ([], st, .clean)
        | some (data, rest2) =>
          if data.take 5 = asciiOf "ttck:" then
            let current := set_tck_period (fromLE4 (data.drop 5))
            let r := session d verbose fuel rest2 st
            (toLE4 current ++ r.1, r.2)
          else ([], st, .clean)
      else if snip = asciiOf "sh" then
        match sread 4 rest1 with
        | none => ([], st, .clean)
        | some (data, rest2) =>
          if data = asciiOf "ift:" then
            match sread 4 rest2 with
            | none => ([], st, .clean)
            | some (numBitsArg, rest3) =>
              let numBits := fromLE4 numBitsArg
              let numBytes := (numBits + 7) / 8
              match sread (numBytes * 2) rest3 with
              | none => ([], st, .clean)
              | some (vectArg, rest4) =>
                if vectArg.isEmpty then ([], st, .clean)
                else
                  let TMS := byteVectToBitStream (vectArg.take numBytes) numBits
                  let TDI := byteVectToBitStream (vectArg.drop numBytes) numBits
                  if st.tap = TapState.exit1IR ∧ TMS = isePattern then
                    let r := session d verbose fuel rest4 st
                    (31 :: r.1, r.2)
                  else
                    match send_data d TMS TDI st.devpos with
                    | (_, .error _) => ([], st, .errored)
                    | (_, .ok (tdo, devpos')) =>
                      let r := session d verbose fuel rest4 ⟨devpos', st.tap⟩
                      (packWire tdo ++ r.1, r.2)
          else ([], st, .clean)
      else ([], st, .clean)

/-- The `has_client_connected` flag after `handle` returns for a session that
began with the flag clear: lines 375-378 reset it to `False`, but they run
only when the command loop ends by `break` (or KeyboardInterrupt); an
exception propagating out of the loop skips them and leaves the flag
`True`. -/
def has_client_connected_after : SessEnd → Bool
  | .clean => false
  | .errored => true

/-- The full byte stream of a `shift:` command. -/
def shiftCmd (numBits : Nat) (tmsBytes tdiBytes : List Nat) : List Nat :=
  asciiOf "shift:" ++ toLE4 numBits ++ tmsBytes ++ tdiBytes

/-- The full byte stream of a `settck:` command. -/
def settckCmd (period : Nat) : List Nat :=
  asciiOf "settck:" ++ toLE4 period

/-!  Claim-side characterization of the shift engine schedule (C1). -/

/-- Claim-side (C1): consecutive `write_tms_tdi_read_tdo` pieces of at most
seven bits covering `[h, q)`, each holding TDI constant at `tdi[t-1]`. -/
inductive Pieces (tdi : List Bool) : Nat → Nat → List JCall → Prop where
  | nil (h : Nat) : Pieces tdi h h []
  | cons (h t q : Nat) (cs : List JCall) :
      h < t → t ≤ h + 7 → t ≤ q →
      Pieces tdi t q cs →
      Pieces tdi h q (JCall.tmsRun h t (tdi.getD (t - 1) false) :: cs)

/-- Claim-side (C1): `[h, q)` is a TMS=1 run extended by one trailing TMS=0
bit — every bit strictly before `q - 1` is 1, and the final bit is 0 unless
the run was cut short by the end of the vector. -/
def OneRunEnd (tms : List Bool) (h q : Nat) : Prop :=
  h < q ∧ q ≤ tms.length ∧
    (∀ i, h ≤ i → i + 1 < q → tms.get? i = some true) ∧
    (tms.get? (q - 1) = some false ∨ (q = tms.length ∧ tms.get? (q - 1) = some true))

mutual
/-- Claim-side (C1): the schedule the engine must emit from cursor `h`: a
walk with a single increasing cursor, where each maximal TMS=0 run becomes
exactly one `write_tdi_read_tdo` call and each TMS=1 run (with one trailing
TMS=0 bit) becomes a sequence of at-most-7-bit `write_tms_tdi_read_tdo`
pieces. -/
inductive Sched (tms tdi : List Bool) : Nat → List JCall → Prop where
  | done : Sched tms tdi tms.length []
  | zeros (h p : Nat) (cs : List JCall) :
      h < p →
      (∀ i, h ≤ i → i < p → tms.get? i = some false) →
      ZTail tms tdi p cs →
      Sched tms tdi h (JCall.tdiRun h p :: cs)
  | ones (h q : Nat) (ps rest : List JCall) :
      tms.get? h = some true →
      OneRunEnd tms h q →
      Pieces tdi h q ps →
      Sched tms tdi q rest →
      Sched tms tdi h (ps ++ rest)

/-- Claim-side (C1): what may follow a TMS=0 run ending at `p`: the end of
the vector, or a TMS=1 bit at `p` (which makes the zero run maximal on the
right). -/
inductive ZTail (tms tdi : List Bool) : Nat → List JCall → Prop where
  | stop : ZTail tms tdi tms.length []
  | more (p : Nat) (cs : List JCall) :
      tms.get? p = some true → Sched tms tdi p cs → ZTail tms tdi p cs
end

/-- A concrete device used by witnesses: FIFO sizes 64/62 and a USB oracle
that always returns the byte 0. -/
def devOk : Dev := ⟨64, 62, fun _ => some 0⟩

/-- A concrete device whose USB reads never deliver data (permanent
timeout). -/
def devDead : Dev := ⟨64, 62, fun _ => none⟩

/-- The initial server state: oracle position 0 and the spec's initial TAP
state Test-Logic-Reset. -/
def st0 : SrvState := ⟨0, .testLogicReset⟩

/-!  Theorems. -/

theorem bytesToBits_append (a b : List Nat) :
    bytesToBits (a ++ b) = bytesToBits a ++ bytesToBits b := by
  induction a with
  | nil => simp [bytesToBits]
  | cons x xs ih => simp [bytesToBits, ih]

theorem byteswapBits_byte (b : Nat) (rest : List Bool) :
    byteswapBits (byteToBits b ++ rest) = byteswapBits rest ++ byteToBits b := by
  simp [byteToBits, byteswapBits]

theorem byteswapBits_bytesToBits (l : List Nat) :
    byteswapBits (bytesToBits l) = bytesToBits l.reverse := by
  induction l with
  | nil => simp [bytesToBits, byteswapBits]
  | cons b bs ih =>
      rw [show bytesToBits (b :: bs) = byteToBits b ++ bytesToBits bs from rfl,
        byteswapBits_byte, ih, List.reverse_cons, bytesToBits_append]
      simp [bytesToBits]

theorem reverse_bytesToBits_reverse (l : List Nat) :
    (bytesToBits l.reverse).reverse = wireBits l := by
  induction l with
  | nil => simp [bytesToBits, wireBits]
  | cons b bs ih =>
      simp only [List.reverse_cons, bytesToBits_append, List.reverse_append, ih]
      simp [bytesToBits, wireBits]

theorem wireBits_length (l : List Nat) : (wireBits l).length = 8 * l.length := by
  induction l with
  | nil => simp [wireBits]
  | cons b bs ih =>
      simp [wireBits, byteToBits, ih]
      ring

/-- `byteVectToBitStream` at full bit length produces exactly the wire-order
bits: lsb-first within each byte, in byte order. -/
theorem byteVectToBitStream_full (b : List Nat) :
    byteVectToBitStream b (8 * b.length) = wireBits b := by
  unfold byteVectToBitStream
  rw [byteswapBits_bytesToBits, reverse_bytesToBits_reverse,
    show 8 * b.length = (wireBits b).length from (wireBits_length b).symm,
    List.take_length]

set_option maxRecDepth 4000 in
theorem bitsToByte_byteToBits (x : Nat) (hx : x < 256) :
    bitsToByte (byteToBits x) = x := by
  revert hx
  revert x
  decide

theorem bitsToBytes_byte (b : Nat) (rest : List Bool) :
    bitsToBytes (byteToBits b ++ rest) = bitsToByte (byteToBits b) :: bitsToBytes rest := by
  simp [byteToBits, bitsToBytes]

theorem bitsToBytes_bytesToBits (l : List Nat) (hl : ∀ x ∈ l, x < 256) :
    bitsToBytes (bytesToBits l) = l := by
  induction l with
  | nil => simp [bytesToBits, bitsToBytes]
  | cons b bs ih =>
      have hb : b < 256 := hl b (by simp)
      have hrest : ∀ x ∈ bs, x < 256 := fun x hx => hl x (by simp [hx])
      rw [show bytesToBits (b :: bs) = byteToBits b ++ bytesToBits bs from rfl,
        bitsToBytes_byte, ih hrest, bitsToByte_byteToBits b hb]

/-- C6.  Converting a byte sequence from wire packing to a bit vector of full
bit length and packing it back yields the original bytes. -/
theorem wire_roundtrip (b : List Nat) (hb : ∀ x ∈ b, x < 256) :
    packWire (byteVectToBitStream b (8 * b.length)) = b := by
  rw [byteVectToBitStream_full]
  unfold packWire
  rw [wireBits_length]
  have hmod : (8 - 8 * b.length % 8) % 8 = 0 := by omega
  rw [hmod]
  simp only [List.replicate_zero, List.append_nil]
  have h1 : (wireBits b).reverse = bytesToBits b.reverse := by
    rw [← reverse_bytesToBits_reverse, List.reverse_reverse]
  rw [h1, byteswapBits_bytesToBits, List.reverse_reverse,
    bitsToBytes_bytesToBits b hb]

/-- C6 witness. -/
theorem wire_roundtrip_witness :
    packWire (byteVectToBitStream [5, 250, 23] (8 * 3)) = [5, 250, 23] := by
  have h := wire_roundtrip [5, 250, 23] (by decide)
  simpa using h

theorem findBitGo_facts (l : List Bool) (b : Bool) :
    ∀ fuel start, l.length - start < fuel →
      ((∀ i, findBitGo l b fuel start = some i → start ≤ i ∧ i < l.length ∧
          l.get? i = some b ∧ (∀ j, start ≤ j → j < i → l.get? j = some (!b))) ∧
       (findBitGo l b fuel start = none →
          ∀ j, start ≤ j → j < l.length → l.get? j = some (!b))) := by
  intro fuel
  induction fuel with
  | zero =>
      intro start hs
      exact absurd hs (by omega)
  | succ fuel ih =>
      intro start hs
      constructor
      · intro i hi
        rw [findBitGo] at hi
        by_cases hlt : start < l.length
        · rw [dif_pos hlt] at hi
          by_cases hb : l.get ⟨start, hlt⟩ = b
          · rw [if_pos hb] at hi
            have : i = start := by simpa using hi.symm
            subst this
            refine ⟨le_refl _, hlt, ?_, ?_⟩
            · rw [List.get?_eq_get hlt, hb]
            · intro j h1 h2
              omega
          · rw [if_neg hb] at hi
            have hrec := (ih (start + 1) (by omega)).1 i hi
            refine ⟨by omega, hrec.2.1, hrec.2.2.1, ?_⟩
            intro j h1 h2
            rcases Nat.eq_or_lt_of_le h1 with heq | h1'
            · rw [← heq, List.get?_eq_get hlt]
              cases hgb : l.get ⟨start, hlt⟩ <;> cases b <;> simp_all
            · exact hrec.2.2.2 j (by omega) h2
        · rw [dif_neg hlt] at hi
          exact absurd hi (by simp)
      · intro hi j hj hjl
        rw [findBitGo] at hi
        by_cases hlt : start < l.length
        · rw [dif_pos hlt] at hi
          by_cases hb : l.get ⟨start, hlt⟩ = b
          · rw [if_pos hb] at hi
            exact absurd hi (by simp)
          · rw [if_neg hb] at hi
            have hrec := (ih (start + 1) (by omega)).2 hi
            rcases Nat.eq_or_lt_of_le hj with heq | hj'
            · rw [← heq, List.get?_eq_get hlt]
              cases hgb : l.get ⟨start, hlt⟩ <;> cases b <;> simp_all
            · exact hrec j (by omega) hjl
        · omega

theorem findBit_some_facts (l : List Bool) (b : Bool) (start i : Nat)
    (h : findBit l b start = some i) :
    start ≤ i ∧ i < l.length ∧ l.get? i = some b ∧
      (∀ j, start ≤ j → j < i → l.get? j = some (!b)) :=
  (findBitGo_facts l b (l.length + 1) start (by omega)).1 i h

theorem findBit_none_facts (l : List Bool) (b : Bool) (start : Nat)
    (h : findBit l b start = none) :
    ∀ j, start ≤ j → j < l.length → l.get? j = some (!b) :=
  (findBitGo_facts l b (l.length + 1) start (by omega)).2 h

theorem tms1Pos_ge (tms : List Bool) (head : Nat) (h : head ≤ tms.length) :
    head ≤ tms1Pos tms head := by
  unfold tms1Pos
  cases hf : findBit tms true head with
  | none => exact h
  | some i =>
      have := (findBit_some_facts tms true head i hf).1
      show head ≤ i
      exact this

theorem tms1Pos_le (tms : List Bool) (head : Nat) : tms1Pos tms head ≤ tms.length := by
  unfold tms1Pos
  cases hf : findBit tms true head with
  | none => exact le_refl _
  | some i =>
      have := (findBit_some_facts tms true head i hf).2.1
      show i ≤ tms.length
      omega

theorem tms0Pos_gt (tms : List Bool) (head : Nat) (h : head < tms.length) :
    head < tms0Pos tms head := by
  unfold tms0Pos
  cases hf : findBit tms false head with
  | none => exact h
  | some i =>
      have := (findBit_some_facts tms false head i hf).1
      show head < i + 1
      omega

theorem tms0Pos_le (tms : List Bool) (head : Nat) : tms0Pos tms head ≤ tms.length := by
  unfold tms0Pos
  cases hf : findBit tms false head with
  | none => exact le_refl _
  | some i =>
      have := (findBit_some_facts tms false head i hf).2.1
      show i + 1 ≤ tms.length
      omega

theorem tms1Pos_zeros (tms : List Bool) (head : Nat) :
    ∀ i, head ≤ i → i < tms1Pos tms head → tms.get? i = some false := by
  intro i h1 h2
  unfold tms1Pos at h2
  cases hf : findBit tms true head with
  | none =>
      rw [hf] at h2
      simp only [Option.getD_none] at h2
      simpa using findBit_none_facts tms true head hf i h1 h2
  | some j =>
      rw [hf] at h2
      simp only [Option.getD_some] at h2
      simpa using (findBit_some_facts tms true head j hf).2.2.2 i h1 h2

theorem tms1Pos_hit (tms : List Bool) (head : Nat)
    (h : tms1Pos tms head < tms.length) :
    tms.get? (tms1Pos tms head) = some true := by
  unfold tms1Pos at h ⊢
  cases hf : findBit tms true head with
  | none => simp [hf] at h
  | some j =>
      simpa using (findBit_some_facts tms true head j hf).2.2.1

theorem tms0Pos_oneRun (tms : List Bool) (p : Nat) (hp : p < tms.length)
    (htp : tms.get? p = some true) : OneRunEnd tms p (tms0Pos tms p) := by
  unfold tms0Pos
  cases hf : findBit tms false p with
  | none =>
      have hall := findBit_none_facts tms false p hf
      show OneRunEnd tms p tms.length
      unfold OneRunEnd
      refine ⟨hp, le_refl _, ?_, Or.inr ⟨rfl, ?_⟩⟩
      · intro i h1 h2
        simpa using hall i h1 (by omega)
      · simpa using hall (tms.length - 1) (by omega) (by omega)
  | some i =>
      obtain ⟨hpi, hilen, hit, hmid⟩ := findBit_some_facts tms false p i hf
      show OneRunEnd tms p (i + 1)
      unfold OneRunEnd
      refine ⟨by omega, by omega, ?_, Or.inl ?_⟩
      · intro j h1 h2
        simpa using hmid j h1 (by omega)
      · simpa using hit

theorem slice_length (l : List α) (a b : Nat) (hb : b ≤ l.length) (hab : a ≤ b) :
    (slice l a b).length = b - a := by
  simp [slice]
  omega

theorem bytesToBits_length (l : List Nat) : (bytesToBits l).length = 8 * l.length := by
  induction l with
  | nil => simp [bytesToBits]
  | cons b bs ih =>
      simp [bytesToBits, byteToBits, ih]
      ring

theorem readBytes_total (d : Dev) (hrx : ∀ i, (d.rx i).isSome) (devpos n : Nat) :
    ∃ data, readBytes d devpos n = .ok data ∧ data.length = n := by
  unfold readBytes
  have hall : (((List.range n).map fun i => d.rx (devpos + i)).all Option.isSome) = true := by
    rw [List.all_eq_true]
    intro o ho
    rw [List.mem_map] at ho
    obtain ⟨i, _, rfl⟩ := ho
    exact hrx _
  simp only [hall, if_true]
  refine ⟨_, rfl, ?_⟩
  simp

theorem readBytes_err (d : Dev) (devpos n : Nat) (e : String)
    (h : readBytes d devpos n = .error e) : e = errShortRead := by
  unfold readBytes at h
  by_cases hall : (((List.range n).map fun i => d.rx (devpos + i)).all Option.isSome) = true
  · simp [hall] at h
  · simp only [Bool.not_eq_true] at hall
    simp [hall] at h
    exact h.symm

theorem write_tms_ok (d : Dev) (hrx : ∀ i, (d.rx i).isSome) (tms : List Bool) (c : Bool)
    (devpos : Nat) (h1 : 0 < tms.length) (h2 : tms.length < 8) :
    ∃ tmsAfter tdiAfter tdo, write_tms_tdi_read_tdo d tms (.flag c) devpos =
      .ok (tmsAfter, tdiAfter, tdo, devpos + 1) ∧ tdo.length = tms.length := by
  obtain ⟨data, hdata, hdlen⟩ := readBytes_total d hrx devpos 1
  unfold write_tms_tdi_read_tdo
  rw [if_pos ⟨h1, h2⟩, hdata]
  refine ⟨_, _, _, rfl, ?_⟩
  simp [byteToBits]
  omega

theorem writeReadBits_ok (d : Dev) (hrx : ∀ i, (d.rx i).isSome) (out : List Bool)
    (devpos : Nat) (h1 : 0 < out.length) (h2 : out.length ≤ 8) :
    ∃ tdo, writeReadBits d out devpos = .ok (tdo, devpos + 1) ∧
      tdo.length = out.length := by
  obtain ⟨data, hdata, hdlen⟩ := readBytes_total d hrx devpos 1
  unfold writeReadBits
  rw [if_pos ⟨h1, h2⟩, hdata]
  refine ⟨_, rfl, ?_⟩
  simp [byteToBits]
  omega

theorem writeReadBytes_ok (d : Dev) (hrx : ∀ i, (d.rx i).isSome) (out : List Bool)
    (devpos k : Nat) (hk : out.length = 8 * k)
    (hr : k ≤ rdBufMax d) (hw : k ≤ wrBufMax d) :
    ∃ tdo, writeReadBytes d out devpos = .ok (tdo, devpos + k) ∧
      tdo.length = out.length := by
  obtain ⟨data, hdata, hdlen⟩ := readBytes_total d hrx devpos (out.length / 8)
  have hol : out.length / 8 = k := by omega
  unfold writeReadBytes
  rw [if_neg (by omega), if_neg (by omega), hdata]
  refine ⟨bytesToBits data, ?_, ?_⟩
  · show Except.ok (bytesToBits data, devpos + out.length / 8) =
      Except.ok (bytesToBits data, devpos + k)
    rw [hol]
  · rw [bytesToBits_length, hdlen]
    omega

theorem writeReadBytes_err (d : Dev) (out : List Bool) (devpos : Nat) (e : String)
    (hr : out.length / 8 ≤ rdBufMax d) (hw : out.length / 8 ≤ wrBufMax d)
    (h : writeReadBytes d out devpos = .error e) : e = errShortRead := by
  unfold writeReadBytes at h
  rw [if_neg (by omega), if_neg (by omega)] at h
  cases hrb : readBytes d devpos (out.length / 8) with
  | error e' =>
      rw [hrb] at h
      simp at h
      subst h
      exact readBytes_err d devpos _ _ hrb
  | ok data =>
      rw [hrb] at h
      simp at h

theorem byteLoop_ok (d : Dev) (hrx : ∀ i, (d.rx i).isSome) (out : List Bool) (b m : Nat)
    (hm1 : 1 ≤ m) (hmr : m ≤ rdBufMax d) (hmw : m ≤ wrBufMax d)
    (hstop : 8 * b ≤ out.length) :
    ∀ fuel a devpos, b - a ≤ fuel →
      ∃ tr tdo devpos', byteLoop d out (8 * b) (8 * m) fuel (8 * a) devpos =
        (tr, .ok (tdo, devpos')) ∧ tdo.length = 8 * b - 8 * a := by
  intro fuel
  induction fuel with
  | zero =>
      intro a devpos hf
      have hnl : ¬ (8 * a < 8 * b) := by omega
      refine ⟨[], [], devpos, ?_, by simp; omega⟩
      simp [byteLoop, hnl]
  | succ fuel ih =>
      intro a devpos hf
      by_cases hab : a < b
      · have hlt : 8 * a < 8 * b := by omega
        have htail : min (8 * a + 8 * m) (8 * b) = 8 * min (a + m) b := by omega
        set t := min (a + m) b with htd
        have h1 : a < t := by omega
        have h3 : t ≤ b := by omega
        have hchunklen : (slice out (8 * a) (8 * t)).length = 8 * t - 8 * a :=
          slice_length out _ _ (by omega) (by omega)
        obtain ⟨tdo1, hw1, hl1⟩ := writeReadBytes_ok d hrx (slice out (8 * a) (8 * t))
          devpos (t - a) (by omega) (by omega) (by omega)
        obtain ⟨tr2, tdo2, devpos2, hrec, hl2⟩ := ih t (devpos + (t - a)) (by omega)
        refine ⟨(slice out (8 * a) (8 * t)).length / 8 :: tr2, tdo1 ++ tdo2, devpos2, ?_, ?_⟩
        · simp only [byteLoop]
          rw [if_pos hlt, htail]
          simp only [hw1, hrec]
        · rw [List.length_append]
          omega
      · have hnl : ¬ (8 * a < 8 * b) := by omega
        refine ⟨[], [], devpos, ?_, by simp; omega⟩
        simp [byteLoop, hnl]

theorem byteLoop_bounds (d : Dev) (out : List Bool) (b m : Nat)
    (hm1 : 1 ≤ m) (hmr : m ≤ rdBufMax d) (hmw : m ≤ wrBufMax d)
    (hstop : 8 * b ≤ out.length) :
    ∀ fuel a devpos,
      (∀ olen ∈ (byteLoop d out (8 * b) (8 * m) fuel (8 * a) devpos).1,
          1 ≤ olen ∧ olen ≤ m) ∧
      (∀ e, (byteLoop d out (8 * b) (8 * m) fuel (8 * a) devpos).2 = .error e →
          e = errShortRead ∨ e = errStuck) := by
  intro fuel
  induction fuel with
  | zero =>
      intro a devpos
      by_cases h : 8 * a < 8 * b
      · constructor
        · intro olen holen
          simp [byteLoop, h] at holen
        · intro e he
          simp [byteLoop, h] at he
          exact Or.inr he.symm
      · constructor
        · intro olen holen
          simp [byteLoop, h] at holen
        · intro e he
          simp [byteLoop, h] at he
  | succ fuel ih =>
      intro a devpos
      by_cases hab : a < b
      · have hlt : 8 * a < 8 * b := by omega
        have htail : min (8 * a + 8 * m) (8 * b) = 8 * min (a + m) b := by omega
        set t := min (a + m) b with htd
        have h1 : a < t := by omega
        have h3 : t ≤ b := by omega
        have hchunklen : (slice out (8 * a) (8 * t)).length = 8 * t - 8 * a :=
          slice_length out _ _ (by omega) (by omega)
        have holen : (slice out (8 * a) (8 * t)).length / 8 = t - a := by omega
        have hstep : ∀ r, byteLoop d out (8 * b) (8 * m) (fuel + 1) (8 * a) devpos = r →
            (∀ olen ∈ r.1, 1 ≤ olen ∧ olen ≤ m) ∧
            (∀ e, r.2 = .error e → e = errShortRead ∨ e = errStuck) := by
          intro r hr
          subst hr
          simp only [byteLoop]
          rw [if_pos hlt, htail]
          cases hwr : writeReadBytes d (slice out (8 * a) (8 * t)) devpos with
          | error e1 =>
              have he1 := writeReadBytes_err d _ devpos e1 (by omega) (by omega) hwr
              constructor
              · intro olen ho
                simp at ho
                subst ho
                omega
              · intro e he
                simp at he
                subst he
                exact Or.inl he1
          | ok pr =>
              obtain ⟨tdo1, devpos1⟩ := pr
              cases hbl : byteLoop d out (8 * b) (8 * m) fuel (8 * t) devpos1 with
          | mk tr2 res2 =>
              simp only [hbl]
              obtain ⟨ihtr, iherr⟩ := ih t devpos1
              rw [hbl] at ihtr iherr
              cases res2 with
              | ok pr2 =>
                  constructor
                  · intro olen ho
                    simp at ho
                    rcases ho with ho | ho
                    · subst ho; omega
                    · exact ihtr olen ho
                  · intro e he
                    simp at he
              | error e2 =>
                  constructor
                  · intro olen ho
                    simp at ho
                    rcases ho with ho | ho
                    · subst ho; omega
                    · exact ihtr olen ho
                  · intro e he
                    simp at he
                    subst he
                    exact iherr e2 rfl
        exact hstep _ rfl
      · have hnl : ¬ (8 * a < 8 * b) := by omega
        constructor
        · intro olen holen
          simp [byteLoop, hnl] at holen
        · intro e he
          simp [byteLoop, hnl] at he

theorem writeReadBits_err (d : Dev) (out : List Bool) (devpos : Nat) (e : String)
    (h1 : 0 < out.length) (h2 : out.length ≤ 8)
    (h : writeReadBits d out devpos = .error e) : e = errShortRead := by
  unfold writeReadBits at h
  rw [if_pos ⟨h1, h2⟩] at h
  cases hrb : readBytes d devpos 1 with
  | error e' =>
      rw [hrb] at h
      simp at h
      subst h
      exact readBytes_err d devpos _ _ hrb
  | ok data =>
      rw [hrb] at h
      simp at h

theorem write_tdi_read_tdo_ok (d : Dev) (hrx : ∀ i, (d.rx i).isSome)
    (hw : 1 ≤ wrBufMax d) (hr : 1 ≤ rdBufMax d) (out : List Bool) (devpos : Nat) :
    ∃ tr tdo devpos', write_tdi_read_tdo d out devpos = (tr, .ok (tdo, devpos')) ∧
      tdo.length = out.length := by
  simp only [write_tdi_read_tdo]
  set m := min (wrBufMax d) (rdBufMax d) with hm
  have hm1 : 1 ≤ m := by omega
  have hmul : m * 8 = 8 * m := by ring
  set b := out.length / 8 with hb
  have hstop : 8 * b ≤ out.length := by omega
  obtain ⟨tr, tdo1, devpos1, hbl, hl1⟩ :=
    byteLoop_ok d hrx out b m hm1 (by omega) (by omega) hstop (b + 1) 0 devpos (by omega)
  have hbl' : byteLoop d out (8 * b) (8 * m) (b + 1) 0 devpos =
      (tr, .ok (tdo1, devpos1)) := by simpa using hbl
  rw [hmul]
  simp only [hbl']
  simp only [Nat.mul_zero, Nat.sub_zero] at hl1
  by_cases hbc : out.length - 8 * b = 0
  · rw [if_neg (by omega)]
    exact ⟨tr, tdo1, devpos1, rfl, by omega⟩
  · rw [if_pos (by omega)]
    have hdl : (out.drop (8 * b)).length = out.length - 8 * b := by simp
    obtain ⟨tdo2, hw2, hl2⟩ := writeReadBits_ok d hrx (out.drop (8 * b)) devpos1
      (by omega) (by omega)
    rw [hw2]
    refine ⟨tr, tdo1 ++ tdo2, devpos1 + 1, rfl, ?_⟩
    rw [List.length_append]
    omega

/-- C7.  Every byte chunk `write_tdi_read_tdo` hands to `_write_read_bytes`
has byte length between 1 and `min(W-3, R-2)`, and the two defensive
chunk-too-large branches of `_write_read_bytes` are unreachable through it:
any error it returns is a short USB read (or the fuel artifact standing in
for the non-terminating `max_rw_bits = 0` loop, impossible here since the
FIFO bounds make `max_rw_bits ≥ 8`). -/
theorem write_tdi_chunks_bounded (d : Dev) (out : List Bool) (devpos : Nat)
    (hW : 3 < d.wPipe) (hR : 2 < d.rPipe) :
    (∀ olen ∈ (write_tdi_read_tdo d out devpos).1,
        1 ≤ olen ∧ olen ≤ min (wrBufMax d) (rdBufMax d)) ∧
    ∀ e, (write_tdi_read_tdo d out devpos).2 = .error e →
        e = errShortRead ∨ e = errStuck := by
  simp only [write_tdi_read_tdo]
  set m := min (wrBufMax d) (rdBufMax d) with hm
  have hwB : 1 ≤ wrBufMax d := by unfold wrBufMax; omega
  have hrB : 1 ≤ rdBufMax d := by unfold rdBufMax; omega
  have hm1 : 1 ≤ m := by omega
  have hmul : m * 8 = 8 * m := by ring
  set b := out.length / 8 with hb
  have hstop : 8 * b ≤ out.length := by omega
  obtain ⟨htr, herr⟩ := byteLoop_bounds d out b m hm1 (by omega) (by omega) hstop
    (b + 1) 0 devpos
  rw [show (8 : Nat) * 0 = 0 from rfl] at htr herr
  rw [hmul]
  cases hbl : byteLoop d out (8 * b) (8 * m) (b + 1) 0 devpos with
  | mk tr res =>
      rw [hbl] at htr herr
      cases res with
      | error e1 =>
          dsimp only
          constructor
          · intro olen ho
            exact htr olen ho
          · intro e he
            simp at he
            subst he
            exact herr e1 rfl
      | ok pr =>
          obtain ⟨tdo1, devpos1⟩ := pr
          dsimp only
          by_cases hbc : out.length - 8 * b = 0
          · rw [if_neg (by omega)]
            refine ⟨fun olen ho => htr olen ho, ?_⟩
            intro e he
            simp at he
          · rw [if_pos (by omega)]
            have hdl : (out.drop (8 * b)).length = out.length - 8 * b := by simp
            cases hwr : writeReadBits d (out.drop (8 * b)) devpos1 with
            | error e2 =>
                constructor
                · intro olen ho
                  exact htr olen ho
                · intro e he
                  simp at he
                  subst he
                  exact Or.inl (writeReadBits_err d _ devpos1 e2 (by omega) (by omega) hwr)
            | ok pr2 =>
                obtain ⟨tdo2, devpos2⟩ := pr2
                constructor
                · intro olen ho
                  exact htr olen ho
                · intro e he
                  simp at he


theorem getD_of_get? (l : List α) (i : Nat) (x dflt : α) (h : l.get? i = some x) :
    l.getD i dflt = x := by
  rw [List.getD_eq_getD_get?, h]
  rfl

theorem tmsSegLoop_ok (d : Dev) (hrx : ∀ i, (d.rx i).isSome) (tms tdi : List Bool)
    (q : Nat) (hq : q ≤ tms.length) (hq2 : q ≤ tdi.length) :
    ∀ fuel head devpos, head ≤ q → q - head < fuel →
      ∃ cs tdo devpos', tmsSegLoop d tms tdi q fuel head devpos = (cs, .ok (tdo, devpos')) ∧
        tdo.length = q - head ∧ Pieces tdi head q cs := by
  intro fuel
  induction fuel with
  | zero =>
      intro head devpos hh hf
      exact absurd hf (by omega)
  | succ fuel ih =>
      intro head devpos hh hf
      by_cases hlt : head < q
      · have ht1 : head < min q (head + 7) := by omega
        have ht7 : min q (head + 7) ≤ head + 7 := by omega
        have htq : min q (head + 7) ≤ q := by omega
        set t := min q (head + 7) with htd
        have hidx : t - 1 < tdi.length := by omega
        have hc : tdi.get? (t - 1) = some (tdi.get ⟨t - 1, hidx⟩) := List.get?_eq_get hidx
        have hslen : (slice tms head t).length = t - head :=
          slice_length tms head t (by omega) (by omega)
        obtain ⟨tmsA, tdiA, tdo1, hwt, hlen1⟩ := write_tms_ok d hrx (slice tms head t)
          (tdi.get ⟨t - 1, hidx⟩) devpos (by omega) (by omega)
        obtain ⟨cs2, tdo2, devpos2, hrec, hlen2, hp2⟩ := ih t (devpos + 1) htq (by omega)
        refine ⟨.tmsRun head t (tdi.get ⟨t - 1, hidx⟩) :: cs2, tdo1 ++ tdo2, devpos2,
          ?_, ?_, ?_⟩
        · simp only [tmsSegLoop]
          rw [if_pos hlt]
          simp only [← htd, hc, hwt, hrec]
        · rw [List.length_append]
          omega
        · have hgd : tdi.getD (t - 1) false = tdi.get ⟨t - 1, hidx⟩ :=
            getD_of_get? tdi (t - 1) _ false hc
          rw [← hgd]
          exact Pieces.cons head t q cs2 ht1 ht7 htq hp2
      · have heq : head = q := by omega
        refine ⟨[], [], devpos, ?_, by simp only [List.length_nil]; omega, ?_⟩
        · simp [tmsSegLoop, hlt]
        · rw [heq]
          exact Pieces.nil q

theorem sendLoop_ok (d : Dev) (hrx : ∀ i, (d.rx i).isSome)
    (hw : 1 ≤ wrBufMax d) (hr : 1 ≤ rdBufMax d) (tms tdi : List Bool)
    (hlen : tms.length = tdi.length) :
    ∀ fuel head devpos, head ≤ tms.length → tms.length - head < fuel →
      ∃ cs tdo devpos', sendLoop d tms tdi fuel head devpos = (cs, .ok (tdo, devpos')) ∧
        tdo.length = tms.length - head ∧ Sched tms tdi head cs := by
  intro fuel
  induction fuel with
  | zero =>
      intro head devpos hh hf
      exact absurd hf (by omega)
  | succ fuel ih =>
      intro head devpos hh hf
      by_cases hlt : head < tms.length
      · have hp_ge : head ≤ tms1Pos tms head := tms1Pos_ge tms head (by omega)
        have hp_le : tms1Pos tms head ≤ tms.length := tms1Pos_le tms head
        have hzeros := tms1Pos_zeros tms head
        set p := tms1Pos tms head with hpd
        by_cases hhp : head < p
        · have hslen : (slice tdi head p).length = p - head :=
            slice_length tdi head p (by omega) (by omega)
          obtain ⟨tr0, tdo0, devpos0, hw0, hl0⟩ :=
            write_tdi_read_tdo_ok d hrx hw hr (slice tdi head p) devpos
          by_cases hpN : p < tms.length
          · have htp : tms.get? p = some true := tms1Pos_hit tms head hpN
            have honer : OneRunEnd tms p (tms0Pos tms p) := tms0Pos_oneRun tms p hpN htp
            set q := tms0Pos tms p with hqd
            have hq_le : q ≤ tms.length := tms0Pos_le tms p
            have hq_gt : p < q := honer.1
            obtain ⟨cs1, tdo1, devpos1, hseg, hl1, hpieces⟩ :=
              tmsSegLoop_ok d hrx tms tdi q hq_le (by omega) (tms.length + 1) p devpos0
                (by omega) (by omega)
            obtain ⟨cs2, tdo2, devpos2, hrec, hl2, hsched⟩ :=
              ih q devpos1 (by omega) (by omega)
            refine ⟨[JCall.tdiRun head p] ++ cs1 ++ cs2, tdo0 ++ tdo1 ++ tdo2, devpos2,
              ?_, ?_, ?_⟩
            · simp only [sendLoop]
              rw [if_pos hlt]
              simp only [← hpd]
              rw [if_pos hhp]
              simp only [hw0]
              rw [if_pos hpN]
              simp only [← hqd, hseg, hrec]
            · simp only [List.length_append]
              omega
            · have hones : Sched tms tdi p (cs1 ++ cs2) :=
                Sched.ones p q cs1 cs2 htp honer hpieces hsched
              have hzt : ZTail tms tdi p (cs1 ++ cs2) := ZTail.more p _ htp hones
              have hz := Sched.zeros head p (cs1 ++ cs2) hhp hzeros hzt
              simpa using hz
          · have hpeq : p = tms.length := by omega
            refine ⟨[JCall.tdiRun head p], tdo0, devpos0, ?_, by omega, ?_⟩
            · simp only [sendLoop]
              rw [if_pos hlt]
              simp only [← hpd]
              rw [if_pos hhp]
              simp only [hw0]
              rw [if_neg hpN]
            · have hzt : ZTail tms tdi p [] := by
                rw [hpeq]
                exact ZTail.stop
              exact Sched.zeros head p [] hhp hzeros hzt
        · have hpe : p = head := by omega
          have hpN : p < tms.length := by omega
          have htp : tms.get? p = some true := tms1Pos_hit tms head hpN
          have honer : OneRunEnd tms p (tms0Pos tms p) := tms0Pos_oneRun tms p hpN htp
          set q := tms0Pos tms p with hqd
          have hq_le : q ≤ tms.length := tms0Pos_le tms p
          have hq_gt : p < q := honer.1
          obtain ⟨cs1, tdo1, devpos1, hseg, hl1, hpieces⟩ :=
            tmsSegLoop_ok d hrx tms tdi q hq_le (by omega) (tms.length + 1) p devpos
              (by omega) (by omega)
          obtain ⟨cs2, tdo2, devpos2, hrec, hl2, hsched⟩ :=
            ih q devpos1 (by omega) (by omega)
          refine ⟨([] : List JCall) ++ cs1 ++ cs2, ([] : List Bool) ++ tdo1 ++ tdo2,
            devpos2, ?_, ?_, ?_⟩
          · simp only [sendLoop]
            rw [if_pos hlt]
            simp only [← hpd]
            rw [if_neg hhp]
            dsimp only
            rw [if_pos hpN]
            simp only [← hqd, hseg, hrec]
          · simp only [List.length_append, List.length_nil]
            omega
          · have hones : Sched tms tdi p (cs1 ++ cs2) :=
              Sched.ones p q cs1 cs2 htp honer hpieces hsched
            rw [hpe] at hones
            simpa using hones
      · have heq : head = tms.length := by omega
        refine ⟨[], [], devpos, ?_, by simp only [List.length_nil]; omega, ?_⟩
        · simp [sendLoop, hlt]
        · rw [heq]
          exact Sched.done


theorem byteswapBits_nomatch (l : List Bool)
    (h : ∀ (b0 b1 b2 b3 b4 b5 b6 b7 : Bool) (rest : List Bool),
        l = b0 :: b1 :: b2 :: b3 :: b4 :: b5 :: b6 :: b7 :: rest → False) :
    byteswapBits l = l := by
  rcases l with _ | ⟨b0, _ | ⟨b1, _ | ⟨b2, _ | ⟨b3, _ | ⟨b4, _ | ⟨b5, _ | ⟨b6, _ | ⟨b7, rest⟩⟩⟩⟩⟩⟩⟩⟩ <;>
    first
      | rfl
      | exact (h _ _ _ _ _ _ _ _ _ rfl).elim

theorem bitsToBytes_nomatch (l : List Bool)
    (h : ∀ (b0 b1 b2 b3 b4 b5 b6 b7 : Bool) (rest : List Bool),
        l = b0 :: b1 :: b2 :: b3 :: b4 :: b5 :: b6 :: b7 :: rest → False) :
    bitsToBytes l = [] := by
  rcases l with _ | ⟨b0, _ | ⟨b1, _ | ⟨b2, _ | ⟨b3, _ | ⟨b4, _ | ⟨b5, _ | ⟨b6, _ | ⟨b7, rest⟩⟩⟩⟩⟩⟩⟩⟩ <;>
    first
      | rfl
      | exact (h _ _ _ _ _ _ _ _ _ rfl).elim

theorem no_eight_short (l : List Bool)
    (h : ∀ (b0 b1 b2 b3 b4 b5 b6 b7 : Bool) (rest : List Bool),
        l = b0 :: b1 :: b2 :: b3 :: b4 :: b5 :: b6 :: b7 :: rest → False) :
    l.length < 8 := by
  rcases l with _ | ⟨b0, _ | ⟨b1, _ | ⟨b2, _ | ⟨b3, _ | ⟨b4, _ | ⟨b5, _ | ⟨b6, _ | ⟨b7, rest⟩⟩⟩⟩⟩⟩⟩⟩ <;>
    first
      | exact (h _ _ _ _ _ _ _ _ _ rfl).elim
      | simp

theorem byteswapBits_length (l : List Bool) : (byteswapBits l).length = l.length := by
  induction l using byteswapBits.induct with
  | case1 b0 b1 b2 b3 b4 b5 b6 b7 rest ih =>
      simp only [byteswapBits, List.length_append, List.length_cons, List.length_nil, ih]
      try omega
  | case2 l h =>
      rw [byteswapBits_nomatch l h]

theorem bitsToBytes_length (l : List Bool) : (bitsToBytes l).length = l.length / 8 := by
  induction l using bitsToBytes.induct with
  | case1 b0 b1 b2 b3 b4 b5 b6 b7 rest ih =>
      simp only [bitsToBytes, List.length_cons, List.length_nil, ih]
      omega
  | case2 l h =>
      rw [bitsToBytes_nomatch l h]
      have := no_eight_short l h
      simp
      omega

theorem byteVectToBitStream_length (b : List Nat) (n : Nat) :
    (byteVectToBitStream b n).length = min n (8 * b.length) := by
  unfold byteVectToBitStream
  rw [List.length_take, List.length_reverse, byteswapBits_length, bytesToBits_length]

theorem packWire_length (v : List Bool) : (packWire v).length = (v.length + 7) / 8 := by
  unfold packWire
  rw [bitsToBytes_length, byteswapBits_length, List.length_reverse, List.length_append,
    List.length_replicate]
  omega

theorem toLE4_length (n : Nat) : (toLE4 n).length = 4 := rfl

theorem fromLE4_toLE4 (n : Nat) (h : n < 4294967296) : fromLE4 (toLE4 n) = n := by
  unfold fromLE4 toLE4
  simp [List.getD]
  omega

theorem sread_append (n : Nat) (a b : List Nat) (h : a.length = n) :
    sread n (a ++ b) = some (a, b) := by
  subst h
  unfold sread
  rw [if_pos (by simp)]
  rw [List.take_left, List.drop_left]

theorem set_tck_period_value (p : Nat) : set_tck_period p = 1000 := rfl


theorem ascii_shift_split : asciiOf "shift:" = asciiOf "sh" ++ asciiOf "ift:" := by decide

theorem ascii_settck_split : asciiOf "settck:" = asciiOf "se" ++ asciiOf "ttck:" := by decide

theorem session_shift_parse (d : Dev) (v fuel N : Nat) (tmsB tdiB rest : List Nat)
    (st : SrvState) (hN1 : 1 ≤ N) (hN2 : N < 4294967296)
    (hlt : tmsB.length = (N + 7) / 8) (hld : tdiB.length = (N + 7) / 8) :
    session d v (fuel + 1) (shiftCmd N tmsB tdiB ++ rest) st =
      (if st.tap = TapState.exit1IR ∧ byteVectToBitStream tmsB N = isePattern then
         ((31 : Nat) :: (session d v fuel rest st).1, (session d v fuel rest st).2)
       else
         match send_data d (byteVectToBitStream tmsB N) (byteVectToBitStream tdiB N)
             st.devpos with
         | (_, .error _) => ([], st, .errored)
         | (_, .ok (tdo, devpos')) =>
             (packWire tdo ++ (session d v fuel rest ⟨devpos', st.tap⟩).1,
              (session d v fuel rest ⟨devpos', st.tap⟩).2)) := by
  have hsplit : shiftCmd N tmsB tdiB ++ rest =
      asciiOf "sh" ++ (asciiOf "ift:" ++ (toLE4 N ++ ((tmsB ++ tdiB) ++ rest))) := by
    unfold shiftCmd
    rw [ascii_shift_split]
    simp [List.append_assoc]
  rw [hsplit]
  have h1 : sread 2 (asciiOf "sh" ++ (asciiOf "ift:" ++ (toLE4 N ++ ((tmsB ++ tdiB) ++ rest)))) =
      some (asciiOf "sh", asciiOf "ift:" ++ (toLE4 N ++ ((tmsB ++ tdiB) ++ rest))) :=
    sread_append 2 _ _ (by decide)
  have h2 : sread 4 (asciiOf "ift:" ++ (toLE4 N ++ ((tmsB ++ tdiB) ++ rest))) =
      some (asciiOf "ift:", toLE4 N ++ ((tmsB ++ tdiB) ++ rest)) :=
    sread_append 4 _ _ (by decide)
  have h3 : sread 4 (toLE4 N ++ ((tmsB ++ tdiB) ++ rest)) =
      some (toLE4 N, (tmsB ++ tdiB) ++ rest) :=
    sread_append 4 _ _ (toLE4_length N)
  have h4 : sread ((fromLE4 (toLE4 N) + 7) / 8 * 2) ((tmsB ++ tdiB) ++ rest) =
      some (tmsB ++ tdiB, rest) :=
    sread_append _ _ _ (by
      rw [List.length_append, hlt, hld, fromLE4_toLE4 N hN2]
      omega)
  have hne : ¬ ((tmsB ++ tdiB).isEmpty = true) := by
    cases hc : tmsB ++ tdiB with
    | nil =>
        have := congrArg List.length hc
        rw [List.length_append, hlt, hld] at this
        simp at this
        omega
    | cons x xs => simp
  have htk : (tmsB ++ tdiB).take ((N + 7) / 8) = tmsB := by
    rw [← hlt]
    exact List.take_left tmsB tdiB
  have hdr : (tmsB ++ tdiB).drop ((N + 7) / 8) = tdiB := by
    rw [← hlt]
    exact List.drop_left tmsB tdiB
  simp only [session, h1]
  rw [if_neg (show ¬ (asciiOf "sh" = asciiOf "ge") from by decide),
    if_neg (show ¬ (asciiOf "sh" = asciiOf "se") from by decide)]
  simp only [if_true]
  simp only [h2]
  simp only [if_true]
  simp only [h3, h4]
  rw [if_neg hne]
  simp only [fromLE4_toLE4 N hN2, htk, hdr]


theorem session_settck_step (d : Dev) (v fuel p : Nat) (rest : List Nat) (st : SrvState) :
    session d v (fuel + 1) (settckCmd p ++ rest) st =
      (toLE4 1000 ++ (session d v fuel rest st).1, (session d v fuel rest st).2) := by
  have hsplit : settckCmd p ++ rest =
      asciiOf "se" ++ ((asciiOf "ttck:" ++ toLE4 p) ++ rest) := by
    unfold settckCmd
    rw [ascii_settck_split]
    simp [List.append_assoc]
  rw [hsplit]
  have h1 : sread 2 (asciiOf "se" ++ ((asciiOf "ttck:" ++ toLE4 p) ++ rest)) =
      some (asciiOf "se", (asciiOf "ttck:" ++ toLE4 p) ++ rest) :=
    sread_append 2 _ _ (by decide)
  have h2 : sread 9 ((asciiOf "ttck:" ++ toLE4 p) ++ rest) =
      some (asciiOf "ttck:" ++ toLE4 p, rest) :=
    sread_append 9 _ _ (by rw [List.length_append, toLE4_length]; decide)
  have htake : (asciiOf "ttck:" ++ toLE4 p).take 5 = asciiOf "ttck:" := by
    rw [show (5 : Nat) = (asciiOf "ttck:").length from by decide]
    exact List.take_left _ _
  simp only [session, h1]
  rw [if_neg (show ¬ (asciiOf "se" = asciiOf "ge") from by decide)]
  simp only [if_true]
  simp only [h2, htake]
  simp only [if_true]
  simp only [set_tck_period_value]


/-- C1.  The shift engine walks equal-length TMS/TDI vectors with a single
increasing cursor and emits: one `write_tdi_read_tdo(tdi[h:p])` call for each
maximal TMS=0 run `[h,p)` with `p > h`, and, for each TMS=1 run extended by
one trailing TMS=0 bit, consecutive `write_tms_tdi_read_tdo` calls of at
most 7 bits each with `tdi_constant = tdi[tail-1]`; the engine issues these
calls and succeeds even when TDI is not constant inside a TMS run (the
statement imposes no constancy hypothesis). -/
theorem send_data_schedule (d : Dev) (tms tdi : List Bool) (devpos : Nat)
    (hlen : tms.length = tdi.length) (hrx : ∀ i, (d.rx i).isSome)
    (hw : 1 ≤ wrBufMax d) (hr : 1 ≤ rdBufMax d) :
    Sched tms tdi 0 (send_data d tms tdi devpos).1 ∧
      ∃ tdo devpos', (send_data d tms tdi devpos).2 = .ok (tdo, devpos') := by
  obtain ⟨cs, tdo, dp, h, hl, hs⟩ := sendLoop_ok d hrx hw hr tms tdi hlen
    (tms.length + 1) 0 devpos (by omega) (by omega)
  unfold send_data
  rw [h]
  exact ⟨hs, tdo, dp, rfl⟩

/-- C1 witness: a shift whose TMS=1 run holds a non-constant TDI. -/
theorem send_data_schedule_witness :
    Sched [true, true, false] [true, false, true] 0
        (send_data devOk [true, true, false] [true, false, true] 0).1 ∧
      ∃ tdo devpos',
        (send_data devOk [true, true, false] [true, false, true] 0).2 =
          .ok (tdo, devpos') :=
  send_data_schedule devOk [true, true, false] [true, false, true] 0 (by decide)
    (fun _ => rfl) (by decide) (by decide)

/-- C2 (amended).  For every N ≥ 1 the shift engine returns exactly N TDO
bits and the server's reply to the `shift:` command is exactly ⌈N/8⌉ bytes,
after which the session continues with the next command.  (The claim's
N = 0 case is false: the handler treats the empty vector read as a failed
read and aborts the session — see `shift_zero_counterexample`.) -/
theorem shift_reply_lengths (d : Dev) (hrx : ∀ i, (d.rx i).isSome)
    (hw : 1 ≤ wrBufMax d) (hr : 1 ≤ rdBufMax d) :
    (∀ tms tdi devpos, tms.length = tdi.length →
      ∃ cs tdo devpos', send_data d tms tdi devpos = (cs, .ok (tdo, devpos')) ∧
        tdo.length = tms.length) ∧
    (∀ v fuel N tmsB tdiB rest st, 1 ≤ N → N < 4294967296 →
      tmsB.length = (N + 7) / 8 → tdiB.length = (N + 7) / 8 →
      ∃ reply st', reply.length = (N + 7) / 8 ∧
        session d v (fuel + 1) (shiftCmd N tmsB tdiB ++ rest) st =
          (reply ++ (session d v fuel rest st').1, (session d v fuel rest st').2)) := by
  have hsd : ∀ tms tdi devpos, tms.length = tdi.length →
      ∃ cs tdo devpos', send_data d tms tdi devpos = (cs, .ok (tdo, devpos')) ∧
        tdo.length = tms.length := by
    intro tms tdi devpos hlen
    obtain ⟨cs, tdo, dp, h, hl, _⟩ := sendLoop_ok d hrx hw hr tms tdi hlen
      (tms.length + 1) 0 devpos (by omega) (by omega)
    exact ⟨cs, tdo, dp, h, by omega⟩
  refine ⟨hsd, ?_⟩
  intro v fuel N tmsB tdiB rest st hN1 hN2 hlt hld
  rw [session_shift_parse d v fuel N tmsB tdiB rest st hN1 hN2 hlt hld]
  have hTMSlen : (byteVectToBitStream tmsB N).length = N := by
    rw [byteVectToBitStream_length, hlt]
    omega
  have hTDIlen : (byteVectToBitStream tdiB N).length = N := by
    rw [byteVectToBitStream_length, hld]
    omega
  by_cases hise : st.tap = TapState.exit1IR ∧ byteVectToBitStream tmsB N = isePattern
  · rw [if_pos hise]
    refine ⟨[31], st, ?_, rfl⟩
    have h5 : N = 5 := by
      have hc := congrArg List.length hise.2
      rw [hTMSlen] at hc
      simpa [isePattern] using hc
    rw [h5]
    decide
  · rw [if_neg hise]
    obtain ⟨cs, tdo, dp', hsdeq, hl⟩ := hsd (byteVectToBitStream tmsB N)
      (byteVectToBitStream tdiB N) st.devpos (by rw [hTMSlen, hTDIlen])
    rw [hsdeq]
    refine ⟨packWire tdo, ⟨dp', st.tap⟩, ?_, rfl⟩
    rw [packWire_length, hl, hTMSlen]

/-- C2 witness. -/
theorem shift_reply_lengths_witness :
    (∀ tms tdi devpos, tms.length = tdi.length →
      ∃ cs tdo devpos', send_data devOk tms tdi devpos = (cs, .ok (tdo, devpos')) ∧
        tdo.length = tms.length) ∧
    (∀ v fuel N tmsB tdiB rest st, 1 ≤ N → N < 4294967296 →
      tmsB.length = (N + 7) / 8 → tdiB.length = (N + 7) / 8 →
      ∃ reply st', reply.length = (N + 7) / 8 ∧
        session devOk v (fuel + 1) (shiftCmd N tmsB tdiB ++ rest) st =
          (reply ++ (session devOk v fuel rest st').1,
           (session devOk v fuel rest st').2)) :=
  shift_reply_lengths devOk (fun _ => rfl) (by decide) (by decide)

/-- C2 counterexample: a `shift:` with `num_bits = 0` aborts the session
without a reply — the following `settck:` command, which alone yields a
4-byte reply, is never processed. -/
theorem shift_zero_counterexample :
    session devOk 0 10 (shiftCmd 0 [] [] ++ settckCmd 1000) st0 = ([], st0, .clean) ∧
      session devOk 0 10 (settckCmd 1000) st0 = ([232, 3, 0, 0], st0, .clean) := by
  decide

/-- C3.  The MPSSE path never advances the software TAP tracker: after a
`shift:` of one TMS=0 bit the tracked state is still Test-Logic-Reset,
although the fold of the TAP transition function over the sent TMS bits
gives Run-Test/Idle. -/
theorem tap_state_not_tracked :
    (session devOk 0 10 (shiftCmd 1 [0] [0]) st0).2.1.tap = TapState.testLogicReset ∧
      tapTrack TapState.testLogicReset (byteVectToBitStream [0] 1) =
        TapState.runTestIdle ∧
      TapState.testLogicReset ≠ TapState.runTestIdle := by
  decide

/-- C4 counterexample: with the tracker at Exit1-IR and the incoming TMS
equal to the claim's pattern 1,0,1,1,1 (wire byte 0x1D = 29), the handler
does not reply 0x1F: it runs the shift engine (two USB reads happen) and
replies 0x00. -/
theorem ise_pattern_counterexample :
    byteVectToBitStream [29] 5 = [true, false, true, true, true] ∧
      (session devOk 0 10 (shiftCmd 5 [29] [0]) ⟨0, .exit1IR⟩).1 = [0] ∧
      (session devOk 0 10 (shiftCmd 5 [29] [0]) ⟨0, .exit1IR⟩).2.1.devpos = 2 := by
  decide

/-- C4 (amended).  The pattern the handler intercepts is 1,1,1,0,1 (index 0
first; wire byte 0x17 = 23; the bitstring literal '0b11101'): when the
tracked TAP state is Exit1-IR and the 5-bit TMS vector equals it, the reply
is the single byte 0x1F, the engine and the USB oracle are untouched, and
the session continues from the unchanged state. -/
theorem ise_workaround_amended (d : Dev) (v fuel : Nat) (tdiB rest : List Nat)
    (st : SrvState) (htap : st.tap = TapState.exit1IR) (hld : tdiB.length = 1) :
    session d v (fuel + 1) (shiftCmd 5 [23] tdiB ++ rest) st =
      (31 :: (session d v fuel rest st).1, (session d v fuel rest st).2) := by
  rw [session_shift_parse d v fuel 5 [23] tdiB rest st (by omega) (by omega)
    (by decide) (by simpa using hld)]
  rw [if_pos ⟨htap, by decide⟩]

/-- C4 witness. -/
theorem ise_workaround_amended_witness :
    session devOk 0 3 (shiftCmd 5 [23] [0] ++ settckCmd 1000) ⟨0, .exit1IR⟩ =
      (31 :: (session devOk 0 2 (settckCmd 1000) ⟨0, .exit1IR⟩).1,
       (session devOk 0 2 (settckCmd 1000) ⟨0, .exit1IR⟩).2) :=
  ise_workaround_amended devOk 0 2 [0] (settckCmd 1000) ⟨0, .exit1IR⟩ rfl rfl

/-- C5.  At the default verbosity 0 the `getinfo:` handler sends no reply at
all — the `sendall` call sits inside the `verbose >= 1` block — while at
verbosity 1 it sends the documented string; so the reply is not independent
of the verbosity level. -/
theorem getinfo_gated_by_verbosity :
    (session devOk 0 2 (asciiOf "getinfo:") st0).1 = [] ∧
      (session devOk 1 2 (asciiOf "getinfo:") st0).1 = xvc_info devOk ∧
      xvc_info devOk ≠ [] := by
  refine ⟨by decide, ?_, by decide⟩
  decide

/-- C7 witness. -/
theorem write_tdi_chunks_bounded_witness :
    (∀ olen ∈ (write_tdi_read_tdo devOk (List.replicate 200 true) 0).1,
        1 ≤ olen ∧ olen ≤ min (wrBufMax devOk) (rdBufMax devOk)) ∧
    ∀ e, (write_tdi_read_tdo devOk (List.replicate 200 true) 0).2 = .error e →
        e = errShortRead ∨ e = errStuck :=
  write_tdi_chunks_bounded devOk (List.replicate 200 true) 0 (by decide) (by decide)

/-- C8 counterexample: for the requested period 500 ns the adapter performs
no frequency-setting action at all, while the claim requires setting
1e9/500 = 2000000 Hz; `set_tck_period` ignores its argument. -/
theorem settck_counterexample :
    (set_tck_period_eff 500).2 = [] ∧
      (set_tck_period_claimed 500 DEFAULT_FREQ).2 = [2000000] ∧
      ([] : List Nat) ≠ [2000000] := by
  decide

/-- C8 (amended).  The server passes the parsed period to the adapter's
`set_tck_period`; the FT4232H implementation ignores it, asks for no
frequency change, and returns the constant `1e9 // DEFAULT_FREQ = 1000` ns,
which the server sends back as 4 bytes little-endian regardless of the
request, and the session continues. -/
theorem settck_amended (d : Dev) (v fuel p : Nat) (rest : List Nat) (st : SrvState) :
    session d v (fuel + 1) (settckCmd p ++ rest) st =
      (toLE4 1000 ++ (session d v fuel rest st).1, (session d v fuel rest st).2) ∧
    (set_tck_period_eff p).2 = [] :=
  ⟨session_settck_step d v fuel p rest st, rfl⟩

/-- C9.  When a USB read fails during a shift (a device that returns no
data), the JtagError propagates out of the handler loop; the flag-reset
lines after the loop are skipped and `has_client_connected` remains True,
contrary to the claim that any session termination resets it. -/
theorem flag_stuck_on_error :
    (session devDead 0 10 (shiftCmd 1 [0] [0]) st0).2.2 = SessEnd.errored ∧
      has_client_connected_after (session devDead 0 10 (shiftCmd 1 [0] [0]) st0).2.2 =
        true := by
  decide

/-- C10.  A successful `write_tms_tdi_read_tdo` call hands back a `tms`
object that has been reversed, prepended with zero bits to a length of 8,
and had bit 0 overwritten with the TDI value — so it no longer equals the
value passed in — while the `tdi` argument comes back unchanged. -/
theorem write_tms_mutates_tms (d : Dev) (tms : List Bool) (tdi : TdiArg)
    (devpos : Nat) (tmsA : List Bool) (tdiA : TdiArg) (tdo : List Bool)
    (devpos' : Nat)
    (h : write_tms_tdi_read_tdo d tms tdi devpos = .ok (tmsA, tdiA, tdo, devpos')) :
    tmsA = (List.replicate (8 - tms.length) false ++ tms.reverse).set 0 (tdiArgBit tdi) ∧
      tmsA ≠ tms ∧ tdiA = tdi := by
  unfold write_tms_tdi_read_tdo at h
  by_cases hlen : 0 < tms.length ∧ tms.length < 8
  · rw [if_pos hlen] at h
    have hbit : ∀ (bit : Bool), bit = tdiArgBit tdi →
        (match readBytes d devpos 1 with
          | Except.error e => Except.error e
          | Except.ok data =>
              Except.ok ((List.replicate (8 - tms.reverse.length) false ++ tms.reverse).set 0 bit,
                tdi, ((byteToBits (data.getD 0 0)).take tms.length).reverse, devpos + 1) :
            Except String (List Bool × TdiArg × List Bool × Nat)) =
          .ok (tmsA, tdiA, tdo, devpos') →
        tmsA = (List.replicate (8 - tms.length) false ++ tms.reverse).set 0 (tdiArgBit tdi) ∧
          tmsA ≠ tms ∧ tdiA = tdi := by
      intro bit hbiteq hmatch
      cases hrb : readBytes d devpos 1 with
      | error e =>
          rw [hrb] at hmatch
          simp at hmatch
      | ok data =>
          rw [hrb] at hmatch
          simp only [Except.ok.injEq, Prod.mk.injEq] at hmatch
          obtain ⟨ha, hb, _, _⟩ := hmatch
          have hlen8 : ((List.replicate (8 - tms.reverse.length) false ++
              tms.reverse).set 0 bit).length = 8 := by
            simp
            omega
          refine ⟨?_, ?_, hb.symm⟩
          · rw [← ha, hbiteq]
            simp
          · rw [← ha]
            intro hcontra
            have := congrArg List.length hcontra
            rw [hlen8] at this
            omega
    cases tdi with
    | flag b =>
        exact hbit b rfl h
    | bits l =>
        dsimp only at h
        by_cases hemp : l.isEmpty
        · rw [if_pos hemp] at h
          simp at h
        · rw [if_neg hemp] at h
          exact hbit (l.getD 0 false) rfl h
  · rw [if_neg hlen] at h
    simp at h

/-- C10 witness. -/
theorem write_tms_mutates_tms_witness :
    ([true, false, false, false, false, true, false, true] : List Bool) =
        (List.replicate (8 - ([true, false, true] : List Bool).length) false ++
          ([true, false, true] : List Bool).reverse).set 0 (tdiArgBit (.flag true)) ∧
      ([true, false, false, false, false, true, false, true] : List Bool) ≠
        [true, false, true] ∧
      TdiArg.flag true = TdiArg.flag true :=
  write_tms_mutates_tms devOk [true, false, true] (.flag true) 0
    [true, false, false, false, false, true, false, true] (.flag true)
    [false, false, false] 1 (by rfl)

end Xvcd
